import Mathlib

/-!
Verification development for the spectrum-visualizer audio pipeline.

The TypeScript sources are shallowly embedded over the rationals: JavaScript
numbers become `ℚ`, `Math.round` becomes `jsRound` (round half toward
positive infinity, as in JavaScript), the JavaScript remainder operator `%`
(sign of the dividend) becomes `jsRem`, and `Math.floor` becomes `Int.floor`
followed by `Int.toNat` where the result indexes a list.  Calls to
`Math.random()` are modelled by explicit rational parameters assumed to lie
in `[0, 1)`, and `Math.sqrt` / `Math.cos` / `Math.sin` — which have no exact
rational counterpart — are abstracted as function or value parameters, so the
theorems below quantify over every possible value those routines could
return.
-/

/-- JavaScript Math.round: round half toward positive infinity. -/
def jsRound (q : ℚ) : ℤ := ⌊q + 1/2⌋

/-- Truncation toward zero, as used by the JavaScript remainder operator. -/
def jsTrunc (q : ℚ) : ℤ := if 0 ≤ q then ⌊q⌋ else ⌈q⌉

/-- The JavaScript remainder operator `a % n` (result has the sign of `a`). -/
def jsRem (a n : ℚ) : ℚ := a - n * jsTrunc (a / n)

/-- From src/src/mood.ts `clamp01`. -/
def clamp01 (value : ℚ) : ℚ := min 1 (max 0 value)

/-- From src/src/mood.ts `lerp`. -/
def lerp (a b t : ℚ) : ℚ := a + (b - a) * t

/-- From src/src/audio.ts `binIndexToFrequency`. -/
def binIndexToFrequency (binIndex sampleRate fftSize : ℚ) : ℚ :=
  let nyquist := sampleRate / 2
  let maxBin := fftSize / 2
  let clamped := min (max binIndex 0) maxBin
  (clamped / maxBin) * nyquist

/-- From src/src/audio.ts `frequencyToBinIndex`. -/
def frequencyToBinIndex (frequency sampleRate fftSize : ℚ) : ℚ :=
  let nyquist := sampleRate / 2
  if frequency ≤ 0 then 0
  else if frequency ≥ nyquist then fftSize / 2 - 1
  else (jsRound ((frequency / nyquist) * (fftSize / 2 - 1)) : ℚ)

/-- From src/src/App.tsx `AudioAnalyzer.normalizeDecibels` (the identical
function also appears in src/src/mood.ts `SpectrogramRenderer.normalizeDecibels`).
The JavaScript `range || 1` substitutes 1 exactly when the range is zero. -/
def normalizeDecibels (minDecibels maxDecibels dbValue : ℚ) : ℚ :=
  let clamped := min (max dbValue minDecibels) maxDecibels
  let range := if maxDecibels - minDecibels = 0 then 1 else maxDecibels - minDecibels
  (clamped - minDecibels) / range

/-- From src/src/App.tsx: the per-band analysis state `InternalBandState`. -/
structure InternalBandState where
  startBin : ℕ
  endBin : ℕ
  smoothedValue : ℚ

/-- From src/src/App.tsx `AudioAnalyzer.getFrame`, the averaging loop over a
band's inclusive bin range.  Out-of-range reads default to 0 here; in the
source the bin indices are clamped to the spectrum length at configuration
time, so the loop never reads out of range. -/
def bandAverageDb (minDecibels : ℚ) (fft : List ℚ) (band : InternalBandState) : ℚ :=
  let binCount : ℤ := (band.endBin : ℤ) - (band.startBin : ℤ) + 1
  if binCount ≤ 0 then minDecibels
  else
    (((List.range binCount.toNat).map (fun k => (fft[band.startBin + k]?).getD 0)).foldl
      (fun a b => a + b) 0) / (binCount : ℚ)

/-- From src/src/App.tsx `AudioAnalyzer.getFrame`, the body of the per-band
loop: average, normalize, exponentially smooth.  Returns the updated band
state together with the energy value stored into `bands[i]`. -/
def getFrameBand (minDecibels maxDecibels bandSmoothingAlpha : ℚ) (fft : List ℚ)
    (band : InternalBandState) : InternalBandState × ℚ :=
  let avgDb := bandAverageDb minDecibels fft band
  let normalized := normalizeDecibels minDecibels maxDecibels avgDb
  let smoothed := band.smoothedValue * (1 - bandSmoothingAlpha) + normalized * bandSmoothingAlpha
  ({ band with smoothedValue := smoothed }, smoothed)

/-- From src/src/App.tsx `AudioAnalyzer.getFrame`: one call, over all bands.
First component: the updated internal band states; second: the returned
`frame.bands` energies. -/
def getFrame (minDecibels maxDecibels bandSmoothingAlpha : ℚ) (fft : List ℚ)
    (bandsSt : List InternalBandState) : List InternalBandState × List ℚ :=
  let results := bandsSt.map (getFrameBand minDecibels maxDecibels bandSmoothingAlpha fft)
  (results.map Prod.fst, results.map Prod.snd)

/-- A sequence of `getFrame` calls, one per supplied spectrum, threading the
per-band smoothing state. -/
def runFrames (minDecibels maxDecibels bandSmoothingAlpha : ℚ) (spectra : List (List ℚ))
    (bandsSt : List InternalBandState) : List InternalBandState :=
  spectra.foldl (fun st fft => (getFrame minDecibels maxDecibels bandSmoothingAlpha fft st).1) bandsSt

/-- From src/src/App.tsx `AudioAnalyzer.getFrame`: the per-band exponential
smoothing recurrence, iterated `n` ticks with the normalized input held at `v`. -/
def smoothIter (alpha v s : ℚ) : ℕ → ℚ
  | 0 => s
  | n + 1 => smoothIter alpha v s n * (1 - alpha) + v * alpha

/-- From src/src/mood.ts `MoodState`. -/
structure MoodState where
  energy : ℚ
  brightness : ℚ
  dynamics : ℚ

/-- From src/src/mood.ts `BandMeta`. -/
structure BandMeta where
  centerHz : ℚ

/-- From src/src/mood.ts `DEFAULT_MOOD`. -/
def DEFAULT_MOOD : MoodState := ⟨2/10, 4/10, 3/10⟩

/-- From src/src/mood.ts `updateMoodFromBands`, the low/mid/high bucket
accumulation loop.  The source iterates an index `i` over the energies,
reading `meta[i]?.centerHz ?? 0`; here that traversal is rendered as
structural recursion on the energy list with the metadata list consumed in
step, which accumulates the same three bucket sums. -/
def bucketEnergies : List ℚ → List BandMeta → ℚ × ℚ × ℚ
  | [], _ => (0, 0, 0)
  | energy :: rest, meta =>
    let freq := (meta.head?.map BandMeta.centerHz).getD 0
    let acc := bucketEnergies rest meta.tail
    if freq < 500 then (acc.1 + energy, acc.2.1, acc.2.2)
    else if freq < 2000 then (acc.1, acc.2.1 + energy, acc.2.2)
    else (acc.1, acc.2.1, acc.2.2 + energy)

/-- From src/src/mood.ts `updateMoodFromBands`, the raw-brightness
computation: bucket sums normalized by total energy (when above the 0.001
epsilon), then `clamp01(high * 2.5 - low * 0.5)`. -/
def brightnessRawOf (bands : List ℚ) (meta : List BandMeta) : ℚ :=
  let buckets := bucketEnergies bands meta
  let totalEnergy := buckets.1 + buckets.2.1 + buckets.2.2
  let lowEnergy := if totalEnergy > 1/1000 then buckets.1 / totalEnergy else buckets.1
  let highEnergy := if totalEnergy > 1/1000 then buckets.2.2 / totalEnergy else buckets.2.2
  clamp01 (highEnergy * (5/2) - lowEnergy * (1/2))

/-- From src/src/mood.ts `updateMoodFromBands`. -/
def updateMoodFromBands (prev : Option MoodState) (bands : List ℚ) (meta : List BandMeta) :
    MoodState :=
  if bands.isEmpty ∨ meta.isEmpty then prev.getD DEFAULT_MOOD
  else
    let state := prev.getD DEFAULT_MOOD
    let energyRaw := bands.foldl (fun a b => a + b) 0 / (bands.length : ℚ)
    let brightnessRaw := brightnessRawOf bands meta
    let mean := energyRaw
    let variance := bands.foldl (fun sum v => sum + (v - mean) * (v - mean)) 0 /
      ((max 1 (bands.length - 1) : ℕ) : ℚ)
    let dynamicsRaw := clamp01 (variance * 4)
    let alpha : ℚ := 15/100
    { energy := state.energy * (1 - alpha) + energyRaw * alpha
      brightness := state.brightness * (1 - alpha) + brightnessRaw * alpha
      dynamics := state.dynamics * (1 - alpha) + dynamicsRaw * alpha }

/-- A hue/saturation/lightness triple; the numeric content of one `hsl(...)`
string produced by src/src/mood.ts `paletteFromMood`. -/
structure Hsl where
  h : ℚ
  s : ℚ
  l : ℚ

/-- The numeric content of the `Palette` produced by src/src/mood.ts
`paletteFromMood`. -/
structure MoodPalette where
  background : Hsl
  base : Hsl
  accent : Hsl
  ring : Hsl
  particle : Hsl
  highlight : Hsl

/-- From src/src/mood.ts `paletteFromMood`, with each `hsl(...)` string
represented by its numeric hue/saturation/lightness components. -/
def paletteFromMood (mood : MoodState) : MoodPalette :=
  let energy := clamp01 mood.energy
  let temperature := clamp01 mood.brightness
  let dynamics := clamp01 mood.dynamics
  let baseHue := lerp 0 280 temperature
  let baseSat := lerp 65 85 energy
  let baseLight := lerp 42 50 temperature
  let hueShift := lerp 60 150 dynamics
  let accentHue := jsRem (baseHue + hueShift + lerp (-30) 30 energy) 360
  let accentSat := lerp 75 98 energy
  let accentLight := lerp 50 68 energy
  let bgHue := jsRem (baseHue + 180) 360
  let bgSat := lerp 25 45 energy
  let bgLight := lerp 6 12 energy
  let ringHue := jsRem (baseHue + lerp 120 240 dynamics) 360
  let particleHue := jsRem (accentHue + lerp (-45) 45 dynamics) 360
  let highlightHue := jsRem (accentHue + lerp 0 30 dynamics) 360
  { background := ⟨bgHue, bgSat, bgLight⟩
    base := ⟨baseHue, baseSat, baseLight⟩
    accent := ⟨accentHue, accentSat, accentLight⟩
    ring := ⟨ringHue, lerp 80 95 energy, lerp 55 70 energy⟩
    particle := ⟨particleHue, lerp 70 90 energy, lerp 55 72 energy⟩
    highlight := ⟨highlightHue, 100, lerp 72 90 energy⟩ }

/-- From src/src/mood.ts `SpectrogramRenderer.colourMap` (identical in both
copies of the renderer): piecewise colour gradient on the clamped value. -/
def colourMap (value : ℚ) : ℤ × ℤ × ℤ :=
  let v := min (max value 0) 1
  if v < 1/4 then
    let t := v / (1/4)
    (0, 0, jsRound (80 + t * 60))
  else if v < 1/2 then
    let t := (v - 1/4) / (1/4)
    (0, jsRound (t * 255), 140 + jsRound (t * 115))
  else if v < 3/4 then
    let t := (v - 1/2) / (1/4)
    (jsRound (t * 255), 255, jsRound (255 - t * 255))
  else
    let t := (v - 3/4) / (1/4)
    (255, 255, 255 - 40 + jsRound (t * 30))

/-- Spec-side (section 4.2 of the spec): the sum of the band energies whose
band center frequency is below 500 Hz, over bands paired with their metadata. -/
def lowBucketSpec (bands : List ℚ) (meta : List BandMeta) : ℚ :=
  (((bands.zip meta).filter fun p => p.2.centerHz < 500).map Prod.fst).sum

/-- Spec-side: the sum of the band energies whose band center frequency lies
in `[500, 2000)` Hz. -/
def midBucketSpec (bands : List ℚ) (meta : List BandMeta) : ℚ :=
  (((bands.zip meta).filter fun p => 500 ≤ p.2.centerHz ∧ p.2.centerHz < 2000).map Prod.fst).sum

/-- Spec-side: the sum of the band energies whose band center frequency is at
least 2000 Hz. -/
def highBucketSpec (bands : List ℚ) (meta : List BandMeta) : ℚ :=
  (((bands.zip meta).filter fun p => 2000 ≤ p.2.centerHz).map Prod.fst).sum

/-- Spec-side: the low bucket sum normalized to a fraction of total energy,
with normalization skipped when the total is below the 0.001 epsilon. -/
def lowFractionSpec (bands : List ℚ) (meta : List BandMeta) : ℚ :=
  let total := lowBucketSpec bands meta + midBucketSpec bands meta + highBucketSpec bands meta
  if total > 1/1000 then lowBucketSpec bands meta / total else lowBucketSpec bands meta

/-- Spec-side: the high bucket sum normalized to a fraction of total energy,
with normalization skipped when the total is below the 0.001 epsilon. -/
def highFractionSpec (bands : List ℚ) (meta : List BandMeta) : ℚ :=
  let total := lowBucketSpec bands meta + midBucketSpec bands meta + highBucketSpec bands meta
  if total > 1/1000 then highBucketSpec bands meta / total else highBucketSpec bands meta

/-- One colour channel of a gradient segment: linear interpolation followed by
JavaScript rounding. -/
def lerpChannel (a b t : ℚ) : ℤ := jsRound (lerp a b t)

/-- Spec-side description of the spectrogram colour map, with the segment
endpoint colours the code actually realizes: on `[0, 0.25]` dark blue
`(0,0,80)` to dark blue `(0,0,140)`, on `[0.25, 0.5]` dark blue to cyan
`(0,255,255)`, on `[0.5, 0.75]` cyan to yellow `(255,255,0)`, on `[0.75, 1]`
pale yellow `(255,255,215)` to near-white `(255,255,245)`, each channel
linearly interpolated (and rounded) on its segment, input clamped to `[0,1]`. -/
def colourMapGradient (value : ℚ) : ℤ × ℤ × ℤ :=
  let v := clamp01 value
  if v < 1/4 then
    (lerpChannel 0 0 (4 * v), lerpChannel 0 0 (4 * v), lerpChannel 80 140 (4 * v))
  else if v < 1/2 then
    (lerpChannel 0 0 (4 * (v - 1/4)), lerpChannel 0 255 (4 * (v - 1/4)),
      lerpChannel 140 255 (4 * (v - 1/4)))
  else if v < 3/4 then
    (lerpChannel 0 255 (4 * (v - 1/2)), lerpChannel 255 255 (4 * (v - 1/2)),
      lerpChannel 255 0 (4 * (v - 1/2)))
  else
    (lerpChannel 255 255 (4 * (v - 3/4)), lerpChannel 255 255 (4 * (v - 3/4)),
      lerpChannel 215 245 (4 * (v - 3/4)))

/-- From src/src/pages/VjVisuals.tsx `Particle`. -/
structure Particle where
  x : ℚ
  y : ℚ
  vx : ℚ
  vy : ℚ
  life : ℚ
  hue : ℚ
  band : ℕ

/-- The `Math.random()` draws consumed by one iteration of the
`createParticles` loop in src/src/pages/VjVisuals.tsx. -/
structure CreateRand where
  rx : ℚ
  ry : ℚ
  rvx : ℚ
  rvy : ℚ
  rLife : ℚ
  rHue : ℚ

/-- From src/src/pages/VjVisuals.tsx `createParticles`: the particle pushed
for loop index `i`. -/
def createParticle (width height : ℚ) (bandCount : ℕ) (i : ℕ) (r : CreateRand) : Particle :=
  { x := r.rx * width
    y := r.ry * height
    vx := (r.rvx - 1/2) * (8/10)
    vy := (r.rvy - 1/2) * (8/10)
    life := r.rLife * (8/10) + 2/10
    hue := 190 + r.rHue * 100
    band := i % max 1 bandCount }

/-- The `Math.random()` draws consumed by one call of
`respawnParticleRadial`; the random angle enters only through its cosine and
sine, which are carried as explicit values since they have no exact rational
form. -/
structure RespawnRand where
  cosAngle : ℚ
  sinAngle : ℚ
  rSpeed : ℚ
  rLife : ℚ
  rHue : ℚ
  rBand : ℚ

/-- From src/src/pages/VjVisuals.tsx `respawnParticleRadial`.  The source
mutates the particle in place, overwriting every field; rendered here as
returning the freshly populated particle. -/
def respawnParticleRadial (cx cy : ℚ) (bandCount : ℕ) (r : RespawnRand) : Particle :=
  let speed := 35/100 + r.rSpeed * (6/10)
  { x := cx
    y := cy
    vx := r.cosAngle * speed
    vy := r.sinAngle * speed
    life := 8/10 + r.rLife * (8/10)
    hue := 190 + r.rHue * 120
    band := (⌊r.rBand * ((max 1 bandCount : ℕ) : ℚ)⌋).toNat }

/-- From src/src/pages/VjVisuals.tsx `drawHybrid`, the per-particle update
pass (motion, life decay, exclusion-zone push, respawn check).  `sqrtFn`
abstracts `Math.sqrt`; every theorem below holds for an arbitrary square-root
routine. -/
def updateParticleHybrid (sqrtFn : ℚ → ℚ) (bands : List ℚ)
    (width height cx cy exclusionRadius maxRadius : ℚ) (r : RespawnRand) (p : Particle) :
    Particle :=
  let avgEnergy := bands.foldl (fun a b => a + b) 0 / ((max bands.length 1 : ℕ) : ℚ)
  let bandCount := max bands.length 1
  let bandEnergy := (bands[p.band]?).getD avgEnergy
  let speed := 35/100 + bandEnergy * (22/10)
  let x1 := p.x + p.vx * speed * 6
  let y1 := p.y + p.vy * speed * 6
  let life1 := p.life - (5/1000 + bandEnergy * (1/100))
  let dx := x1 - cx
  let dy := y1 - cy
  let dist := sqrtFn (dx * dx + dy * dy)
  let pushed :=
    if dist < exclusionRadius then
      let push := (exclusionRadius - dist) * (4/10)
      let normX := if dx = 0 ∧ dy = 0 then 1 else dx / max dist (1/1000)
      let normY := if dx = 0 ∧ dy = 0 then 0 else dy / max dist (1/1000)
      (x1 + normX * push, y1 + normY * push)
    else (x1, y1)
  if life1 ≤ 0 ∨ pushed.1 < -80 ∨ pushed.1 > width + 80 ∨ pushed.2 < -80 ∨
      pushed.2 > height + 80 ∨ dist > maxRadius then
    respawnParticleRadial cx cy bandCount r
  else
    { p with x := pushed.1, y := pushed.2, life := life1 }

/-! ### General bound lemmas -/

theorem clamp01_mem (v : ℚ) : 0 ≤ clamp01 v ∧ clamp01 v ≤ 1 :=
  ⟨le_min (by norm_num) (le_max_left 0 v), min_le_left 1 _⟩

theorem lerp_mem {a b t : ℚ} (hab : a ≤ b) (h0 : 0 ≤ t) (h1 : t ≤ 1) :
    a ≤ lerp a b t ∧ lerp a b t ≤ b := by
  unfold lerp
  constructor <;> nlinarith

theorem mix_mem {a b alpha : ℚ} (ha : 0 ≤ a ∧ a ≤ 1) (hb : 0 ≤ b ∧ b ≤ 1)
    (h0 : 0 ≤ alpha) (h1 : alpha ≤ 1) :
    0 ≤ a * (1 - alpha) + b * alpha ∧ a * (1 - alpha) + b * alpha ≤ 1 := by
  obtain ⟨ha0, ha1⟩ := ha
  obtain ⟨hb0, hb1⟩ := hb
  constructor <;> nlinarith

theorem normalizeDecibels_mem (minDb maxDb d : ℚ) :
    0 ≤ normalizeDecibels minDb maxDb d ∧ normalizeDecibels minDb maxDb d ≤ 1 := by
  simp only [normalizeDecibels]
  rcases lt_trichotomy (maxDb - minDb) 0 with h | h | h
  · have hne : maxDb - minDb ≠ 0 := ne_of_lt h
    have hcl : min (max d minDb) maxDb = maxDb :=
      min_eq_right (le_trans (by linarith : maxDb ≤ minDb) (le_max_right d minDb))
    rw [if_neg hne, hcl, div_self hne]
    norm_num
  · have hcl : min (max d minDb) maxDb = maxDb :=
      min_eq_right (le_trans (by linarith : maxDb ≤ minDb) (le_max_right d minDb))
    rw [if_pos h, hcl, h]
    norm_num
  · have hne : maxDb - minDb ≠ 0 := ne_of_gt h
    rw [if_neg hne]
    have hlo : minDb ≤ min (max d minDb) maxDb :=
      le_min (le_max_right d minDb) (by linarith)
    have hhi : min (max d minDb) maxDb ≤ maxDb := min_le_right _ _
    constructor
    · exact div_nonneg (by linarith) (by linarith)
    · rw [div_le_one h]
      linarith

/-! ### C10: decibel normalization is monotone -/

/-- C10: whenever `minDecibels < maxDecibels`, `normalizeDecibels` is monotone
non-decreasing in the dB input — a louder magnitude never maps to a lower
normalized energy. -/
theorem c10_normalizeDecibels_monotone (minDb maxDb d1 d2 : ℚ)
    (h : minDb < maxDb) (hd : d1 ≤ d2) :
    normalizeDecibels minDb maxDb d1 ≤ normalizeDecibels minDb maxDb d2 := by
  simp only [normalizeDecibels]
  have hne : maxDb - minDb ≠ 0 := ne_of_gt (by linarith)
  rw [if_neg hne]
  have hr : (0 : ℚ) < maxDb - minDb := by linarith
  have hmm : min (max d1 minDb) maxDb ≤ min (max d2 minDb) maxDb :=
    min_le_min (max_le_max hd le_rfl) le_rfl
  rw [div_le_div_iff₀ hr hr]
  nlinarith [hmm]

/-- C10 witness at the default decibel range. -/
theorem c10_normalizeDecibels_monotone_witness :
    normalizeDecibels (-100) (-30) (-80) ≤ normalizeDecibels (-100) (-30) (-50) :=
  c10_normalizeDecibels_monotone (-100) (-30) (-80) (-50) (by norm_num) (by norm_num)

/-! ### C8: mood estimation fallback on empty inputs -/

/-- C8: `updateMoodFromBands` with an empty band-energy list or an empty band
metadata list returns the previous state unchanged, or the documented default
mood (0.2, 0.4, 0.3) when no previous state exists; it is total, so it never
fails. -/
theorem c8_updateMood_empty_fallback :
    ∀ (prev : Option MoodState) (bands : List ℚ) (meta : List BandMeta),
      updateMoodFromBands prev [] meta = prev.getD DEFAULT_MOOD ∧
      updateMoodFromBands prev bands [] = prev.getD DEFAULT_MOOD ∧
      DEFAULT_MOOD = ⟨2/10, 4/10, 3/10⟩ := by
  intro prev bands meta
  refine ⟨?_, ?_, rfl⟩
  · unfold updateMoodFromBands
    simp
  · unfold updateMoodFromBands
    simp

/-! ### C4: exponential smoothing convergence -/

/-- C4: iterating the per-band smoothing update with the normalized input held
at `v`, the distance to `v` after `n` ticks is exactly `(1-α)^n` times the
initial distance, and it is non-increasing tick over tick (monotone
approach), for every `α ∈ (0,1]`. -/
theorem c4_smoothing_convergence (alpha v s : ℚ) (h0 : 0 < alpha) (h1 : alpha ≤ 1) (n : ℕ) :
    smoothIter alpha v s n - v = (1 - alpha) ^ n * (s - v) ∧
    |smoothIter alpha v s n - v| = (1 - alpha) ^ n * |s - v| ∧
    |smoothIter alpha v s (n + 1) - v| ≤ |smoothIter alpha v s n - v| := by
  have hnn : (0 : ℚ) ≤ 1 - alpha := by linarith
  have key : ∀ m : ℕ, smoothIter alpha v s m - v = (1 - alpha) ^ m * (s - v) := by
    intro m
    induction m with
    | zero => simp [smoothIter]
    | succ k ih =>
      show smoothIter alpha v s k * (1 - alpha) + v * alpha - v = _
      rw [pow_succ]
      linear_combination (1 - alpha) * ih
  have habs : ∀ m : ℕ, |smoothIter alpha v s m - v| = (1 - alpha) ^ m * |s - v| := by
    intro m
    rw [key m, abs_mul, abs_pow, abs_of_nonneg hnn]
  refine ⟨key n, habs n, ?_⟩
  rw [habs n, habs (n + 1)]
  have hpow : (1 - alpha) ^ (n + 1) ≤ (1 - alpha) ^ n :=
    pow_le_pow_of_le_one hnn (by linarith) (Nat.le_succ n)
  exact mul_le_mul_of_nonneg_right hpow (abs_nonneg _)

/-- C4 witness: one tick at α = 1/2 from 0 toward 1. -/
theorem c4_smoothing_convergence_witness :
    smoothIter (1/2) 1 0 1 - 1 = (1 - 1/2) ^ 1 * (0 - 1) :=
  (c4_smoothing_convergence (1/2) 1 0 (by norm_num) (by norm_num) 1).1

/-! ### C1: band energies stay in the unit interval -/

theorem getFrameBand_snd_mem (minDb maxDb alpha : ℚ) (h0 : 0 ≤ alpha) (h1 : alpha ≤ 1)
    (fft : List ℚ) (band : InternalBandState)
    (hb : 0 ≤ band.smoothedValue ∧ band.smoothedValue ≤ 1) :
    0 ≤ (getFrameBand minDb maxDb alpha fft band).2 ∧
      (getFrameBand minDb maxDb alpha fft band).2 ≤ 1 := by
  simp only [getFrameBand]
  exact mix_mem hb (normalizeDecibels_mem minDb maxDb (bandAverageDb minDb fft band)) h0 h1

theorem getFrame_mem (minDb maxDb alpha : ℚ) (h0 : 0 ≤ alpha) (h1 : alpha ≤ 1)
    (fft : List ℚ) (st : List InternalBandState)
    (hst : ∀ b ∈ st, 0 ≤ b.smoothedValue ∧ b.smoothedValue ≤ 1) :
    (∀ b ∈ (getFrame minDb maxDb alpha fft st).1,
        0 ≤ b.smoothedValue ∧ b.smoothedValue ≤ 1) ∧
    (∀ v ∈ (getFrame minDb maxDb alpha fft st).2, 0 ≤ v ∧ v ≤ 1) := by
  constructor
  · intro b hb
    simp only [getFrame, List.map_map, List.mem_map, Function.comp] at hb
    obtain ⟨a, ha, rfl⟩ := hb
    exact getFrameBand_snd_mem minDb maxDb alpha h0 h1 fft a (hst a ha)
  · intro v hv
    simp only [getFrame, List.map_map, List.mem_map, Function.comp] at hv
    obtain ⟨a, ha, rfl⟩ := hv
    exact getFrameBand_snd_mem minDb maxDb alpha h0 h1 fft a (hst a ha)

theorem runFrames_mem (minDb maxDb alpha : ℚ) (h0 : 0 ≤ alpha) (h1 : alpha ≤ 1)
    (spectra : List (List ℚ)) (st : List InternalBandState)
    (hst : ∀ b ∈ st, 0 ≤ b.smoothedValue ∧ b.smoothedValue ≤ 1) :
    ∀ b ∈ runFrames minDb maxDb alpha spectra st,
      0 ≤ b.smoothedValue ∧ b.smoothedValue ≤ 1 := by
  induction spectra generalizing st with
  | nil => exact hst
  | cons fft rest ih =>
    exact ih _ (getFrame_mem minDb maxDb alpha h0 h1 fft st hst).1

/-- C1: over every sequence of `getFrame` calls on an analyzer whose band
smoothing factor lies in `(0, 1]` and whose per-band smoothed values start at
0, every stored smoothed value and every band energy returned in
`frame.bands` lies in `[0, 1]`, for all dB spectra: the normalization clamps
into `[0, 1]` and the exponential smoothing preserves membership. -/
theorem c1_band_energies_unit_interval (minDb maxDb alpha : ℚ)
    (h0 : 0 < alpha) (h1 : alpha ≤ 1)
    (st0 : List InternalBandState) (hinit : ∀ b ∈ st0, b.smoothedValue = 0)
    (spectra : List (List ℚ)) :
    (∀ b ∈ runFrames minDb maxDb alpha spectra st0,
        0 ≤ b.smoothedValue ∧ b.smoothedValue ≤ 1) ∧
    ∀ fft : List ℚ,
      ∀ v ∈ (getFrame minDb maxDb alpha fft (runFrames minDb maxDb alpha spectra st0)).2,
        0 ≤ v ∧ v ≤ 1 := by
  have hst0 : ∀ b ∈ st0, 0 ≤ b.smoothedValue ∧ b.smoothedValue ≤ 1 := by
    intro b hb
    rw [hinit b hb]
    norm_num
  have hrun := runFrames_mem minDb maxDb alpha (le_of_lt h0) h1 spectra st0 hst0
  exact ⟨hrun, fun fft => (getFrame_mem minDb maxDb alpha (le_of_lt h0) h1 fft _ hrun).2⟩

/-- C1 witness: a single frame at the default decibel range, smoothing factor
0.65, one band covering bin 0, spectrum `[-50]` dB. -/
theorem c1_band_energies_unit_interval_witness :
    0 ≤ (getFrameBand (-100) (-30) (65/100) [-50] ⟨0, 0, 0⟩).2 ∧
      (getFrameBand (-100) (-30) (65/100) [-50] ⟨0, 0, 0⟩).2 ≤ 1 := by
  have h := (c1_band_energies_unit_interval (-100) (-30) (65/100) (by norm_num) (by norm_num)
    [⟨0, 0, 0⟩] (by intro b hb; rw [List.mem_singleton] at hb; rw [hb]) []).2 [-50]
  exact h _ (by simp [runFrames, getFrame])

/-! ### C2: mood components and the unclamped energy channel -/

/-- C2 counterexample: with the default previous mood (components in `[0,1]`)
and the single band energy 10 (a finite input outside `[0,1]`), the energy
component returned by `updateMoodFromBands` is 1.67, outside `[0,1]` — the
energy channel is smoothed but never clamped. -/
theorem c2_mood_energy_counterexample :
    (updateMoodFromBands (some DEFAULT_MOOD) [10] [⟨0⟩]).energy = 167/100 ∧
      1 < (updateMoodFromBands (some DEFAULT_MOOD) [10] [⟨0⟩]).energy := by
  constructor <;> norm_num [updateMoodFromBands, DEFAULT_MOOD]

theorem foldl_add_bounds (l : List ℚ) :
    (∀ v ∈ l, 0 ≤ v ∧ v ≤ 1) → ∀ a : ℚ,
      a ≤ l.foldl (fun x y => x + y) a ∧ l.foldl (fun x y => x + y) a ≤ a + l.length := by
  induction l with
  | nil =>
    intro _ a
    simp
  | cons e rest ih =>
    intro hl a
    have he := hl e (by simp)
    have hr := ih (fun v hv => hl v (by simp [hv])) (a + e)
    rw [List.foldl_cons]
    constructor
    · exact le_trans (by linarith [he.1]) hr.1
    · refine le_trans hr.2 ?_
      simp only [List.length_cons]
      push_cast
      linarith [he.2]

/-- C2 amended: for every previous mood with components in `[0,1]` and every
band-energy list whose values lie in `[0,1]` (the range the analyzer actually
produces), all three components returned by `updateMoodFromBands` lie in
`[0,1]`; brightness and dynamics are clamped, and energy is a convex
combination of in-range values.  (As stated over arbitrary finite energies
the claim is false: the energy channel is not clamped.) -/
theorem c2_amended_mood_components_unit_interval (prev : Option MoodState)
    (hprev : ∀ m ∈ prev, (0 ≤ m.energy ∧ m.energy ≤ 1) ∧
      (0 ≤ m.brightness ∧ m.brightness ≤ 1) ∧ (0 ≤ m.dynamics ∧ m.dynamics ≤ 1))
    (bands : List ℚ) (hb : ∀ v ∈ bands, 0 ≤ v ∧ v ≤ 1) (meta : List BandMeta) :
    (0 ≤ (updateMoodFromBands prev bands meta).energy ∧
      (updateMoodFromBands prev bands meta).energy ≤ 1) ∧
    (0 ≤ (updateMoodFromBands prev bands meta).brightness ∧
      (updateMoodFromBands prev bands meta).brightness ≤ 1) ∧
    (0 ≤ (updateMoodFromBands prev bands meta).dynamics ∧
      (updateMoodFromBands prev bands meta).dynamics ≤ 1) := by
  have hst : (0 ≤ (prev.getD DEFAULT_MOOD).energy ∧ (prev.getD DEFAULT_MOOD).energy ≤ 1) ∧
      (0 ≤ (prev.getD DEFAULT_MOOD).brightness ∧ (prev.getD DEFAULT_MOOD).brightness ≤ 1) ∧
      (0 ≤ (prev.getD DEFAULT_MOOD).dynamics ∧ (prev.getD DEFAULT_MOOD).dynamics ≤ 1) := by
    cases prev with
    | none =>
      norm_num [DEFAULT_MOOD]
    | some m =>
      simpa using hprev m rfl
  by_cases hemp : bands.isEmpty ∨ meta.isEmpty
  · rw [updateMoodFromBands, if_pos hemp]
    exact hst
  · have hne : bands ≠ [] := by
      intro h
      exact hemp (Or.inl (by simp [h]))
    have hlen : 0 < bands.length := List.length_pos.mpr hne
    have hlenq : (0 : ℚ) < (bands.length : ℚ) := by exact_mod_cast hlen
    have hsum := foldl_add_bounds bands hb 0
    have hraw : 0 ≤ bands.foldl (fun x y => x + y) 0 / (bands.length : ℚ) ∧
        bands.foldl (fun x y => x + y) 0 / (bands.length : ℚ) ≤ 1 := by
      constructor
      · exact div_nonneg (by linarith [hsum.1]) (le_of_lt hlenq)
      · rw [div_le_one hlenq]
        linarith [hsum.2]
    rw [updateMoodFromBands, if_neg hemp]
    refine ⟨?_, ?_, ?_⟩
    · exact mix_mem hst.1 hraw (by norm_num) (by norm_num)
    · exact mix_mem hst.2.1 (clamp01_mem _) (by norm_num) (by norm_num)
    · exact mix_mem hst.2.2 (clamp01_mem _) (by norm_num) (by norm_num)

/-- C2 amended witness: first call (no previous state), one in-range band. -/
theorem c2_amended_witness :
    0 ≤ (updateMoodFromBands none [1/2] [⟨100⟩]).energy ∧
      (updateMoodFromBands none [1/2] [⟨100⟩]).energy ≤ 1 :=
  (c2_amended_mood_components_unit_interval none (by simp) [1/2]
    (by intro v hv; rw [List.mem_singleton] at hv; rw [hv]; norm_num) [⟨100⟩]).1

/-! ### C6: the spectrogram colour map -/

/-- C6 counterexample: the colour map at normalized value 0 yields the dark
blue `(0, 0, 80)`, not black `(0, 0, 0)` — the first gradient segment does
not start at black. -/
theorem c6_colourMap_zero_counterexample :
    colourMap 0 = (0, 0, 80) ∧ colourMap 0 ≠ (0, 0, 0) := by
  have h : colourMap 0 = (0, 0, 80) := by
    norm_num [colourMap, jsRound]
  refine ⟨h, ?_⟩
  rw [h]
  simp

/-! ### C7: mood-driven palette hues -/

theorem jsRem_nonneg_mem {a n : ℚ} (ha : 0 ≤ a) (hn : 0 < n) :
    0 ≤ jsRem a n ∧ jsRem a n < n := by
  have hdiv : 0 ≤ a / n := div_nonneg ha hn.le
  rw [jsRem, jsTrunc, if_pos hdiv]
  have h1 : (⌊a / n⌋ : ℚ) ≤ a / n := Int.floor_le _
  have h2 : a / n < ⌊a / n⌋ + 1 := Int.lt_floor_add_one _
  constructor
  · have h3 := mul_le_mul_of_nonneg_right h1 hn.le
    rw [div_mul_cancel₀ a (ne_of_gt hn)] at h3
    nlinarith
  · have h3 := mul_lt_mul_of_pos_right h2 hn
    rw [div_mul_cancel₀ a (ne_of_gt hn)] at h3
    nlinarith

theorem jsRem_of_neg_gt {a n : ℚ} (ha : a < 0) (hgt : -n < a) (hn : 0 < n) :
    jsRem a n = a := by
  have hdiv : ¬ (0 ≤ a / n) := by
    rw [not_le]
    exact div_neg_of_neg_of_pos ha hn
  rw [jsRem, jsTrunc, if_neg hdiv]
  have hceil : ⌈a / n⌉ = 0 := by
    rw [Int.ceil_eq_zero_iff, Set.mem_Ioc]
    constructor
    · rw [show (-1 : ℚ) = -n / n by rw [neg_div, div_self (ne_of_gt hn)]]
      exact div_lt_div_of_pos_right hgt hn
    · exact le_of_lt (div_neg_of_neg_of_pos ha hn)
  rw [hceil]
  push_cast
  ring

/-- C7 counterexample: at the mood `(0, 0, 0)` the particle hue computed by
`paletteFromMood` is −15°, which is not a canonical value in `[0°, 360°)` —
the JavaScript remainder keeps the sign of its dividend. -/
theorem c7_particle_hue_counterexample :
    (paletteFromMood ⟨0, 0, 0⟩).particle.h = -15 ∧ (paletteFromMood ⟨0, 0, 0⟩).particle.h < 0 := by
  have h : (paletteFromMood ⟨0, 0, 0⟩).particle.h = -15 := by
    norm_num [paletteFromMood, clamp01, lerp, jsRem, jsTrunc]
  exact ⟨h, by rw [h]; norm_num⟩

/-- C7 amended: `paletteFromMood` computes the hues by the spec's arithmetic
with components pre-clamped to `[0,1]`, but with the JavaScript signed
remainder in place of a canonical `mod`: the base hue lies in `[0°, 280°]`
and the accent hue in `[0°, 360°)`, while the particle hue lies only in
`[−45°, 360°)` and can be negative. -/
theorem c7_amended_palette_hues (mood : MoodState) :
    (paletteFromMood mood).base.h = lerp 0 280 (clamp01 mood.brightness) ∧
    (paletteFromMood mood).accent.h =
      jsRem ((paletteFromMood mood).base.h + lerp 60 150 (clamp01 mood.dynamics) +
        lerp (-30) 30 (clamp01 mood.energy)) 360 ∧
    (paletteFromMood mood).particle.h =
      jsRem ((paletteFromMood mood).accent.h + lerp (-45) 45 (clamp01 mood.dynamics)) 360 ∧
    (0 ≤ (paletteFromMood mood).base.h ∧ (paletteFromMood mood).base.h < 360) ∧
    (0 ≤ (paletteFromMood mood).accent.h ∧ (paletteFromMood mood).accent.h < 360) ∧
    (-45 ≤ (paletteFromMood mood).particle.h ∧ (paletteFromMood mood).particle.h < 360) := by
  obtain ⟨he0, he1⟩ := clamp01_mem mood.energy
  obtain ⟨hb0, hb1⟩ := clamp01_mem mood.brightness
  obtain ⟨hd0, hd1⟩ := clamp01_mem mood.dynamics
  have hbase : (paletteFromMood mood).base.h = lerp 0 280 (clamp01 mood.brightness) := rfl
  have haccent : (paletteFromMood mood).accent.h =
      jsRem (lerp 0 280 (clamp01 mood.brightness) + lerp 60 150 (clamp01 mood.dynamics) +
        lerp (-30) 30 (clamp01 mood.energy)) 360 := rfl
  have hparticle : (paletteFromMood mood).particle.h =
      jsRem ((paletteFromMood mood).accent.h + lerp (-45) 45 (clamp01 mood.dynamics)) 360 := rfl
  have hbm := lerp_mem (by norm_num : (0:ℚ) ≤ 280) hb0 hb1
  have hsm := lerp_mem (by norm_num : (60:ℚ) ≤ 150) hd0 hd1
  have hem := lerp_mem (by norm_num : (-30:ℚ) ≤ 30) he0 he1
  have hacc : 0 ≤ (paletteFromMood mood).accent.h ∧ (paletteFromMood mood).accent.h < 360 := by
    rw [haccent]
    exact jsRem_nonneg_mem (by linarith [hbm.1, hsm.1, hem.1]) (by norm_num)
  have hdm := lerp_mem (by norm_num : (-45:ℚ) ≤ 45) hd0 hd1
  refine ⟨hbase, by rw [haccent, hbase], hparticle, ⟨by rw [hbase]; linarith [hbm.1],
    by rw [hbase]; linarith [hbm.2]⟩, hacc, ?_⟩
  rcases le_or_lt 0 ((paletteFromMood mood).accent.h + lerp (-45) 45 (clamp01 mood.dynamics))
    with hs | hs
  · have := jsRem_nonneg_mem hs (by norm_num : (0:ℚ) < 360)
    rw [hparticle]
    constructor <;> linarith [this.1, this.2]
  · have heq := jsRem_of_neg_gt hs (by linarith [hacc.1, hdm.1] : (-360:ℚ) <
      (paletteFromMood mood).accent.h + lerp (-45) 45 (clamp01 mood.dynamics))
      (by norm_num : (0:ℚ) < 360)
    rw [hparticle, heq]
    constructor <;> linarith [hacc.1, hdm.1]

theorem jsRound_intCast_add (z : ℤ) (q : ℚ) : jsRound ((z : ℚ) + q) = z + jsRound q := by
  rw [jsRound, jsRound, add_assoc, Int.floor_int_add]

/-- C6 amended: the colour map is exactly the piecewise linearly interpolated
(and per-channel rounded) gradient through `(0,0,80)`, `(0,0,140)`,
`(0,255,255)`, `(255,255,0)` and then `(255,255,215)` to `(255,255,245)` on
the last quarter, on the input clamped to `[0,1]`; in particular value 0
yields dark blue `(0,0,80)`, not black. -/
theorem c6_amended_colourMap_is_gradient (value : ℚ) :
    colourMap value = colourMapGradient value := by
  have hclamp : min (max value 0) 1 = clamp01 value := by
    rw [clamp01, max_comm, min_comm]
  rw [colourMap, colourMapGradient, hclamp]
  set v := clamp01 value with hv
  split_ifs with h1 h2 h3
  · simp only [Prod.mk.injEq]
    refine ⟨?_, ?_, ?_⟩
    · norm_num [lerpChannel, lerp, jsRound]
    · norm_num [lerpChannel, lerp, jsRound]
    · rw [lerpChannel, lerp]
      congr 1
      ring
  · simp only [Prod.mk.injEq]
    refine ⟨?_, ?_, ?_⟩
    · norm_num [lerpChannel, lerp, jsRound]
    · rw [lerpChannel, lerp]
      congr 1
      ring
    · rw [lerpChannel, lerp,
        show (140 : ℚ) + (255 - 140) * (4 * (v - 1/4)) = ((140 : ℤ) : ℚ) + 115 * (4 * (v - 1/4))
          by push_cast; ring,
        jsRound_intCast_add]
      congr 1
      congr 1
      ring
  · simp only [Prod.mk.injEq]
    refine ⟨?_, ?_, ?_⟩
    · rw [lerpChannel, lerp]
      congr 1
      ring
    · norm_num [lerpChannel, lerp, jsRound]
    · rw [lerpChannel, lerp]
      congr 1
      ring
  · simp only [Prod.mk.injEq]
    refine ⟨?_, ?_, ?_⟩
    · norm_num [lerpChannel, lerp, jsRound]
    · norm_num [lerpChannel, lerp, jsRound]
    · rw [lerpChannel, lerp,
        show (215 : ℚ) + (245 - 215) * (4 * (v - 3/4)) = ((215 : ℤ) : ℚ) + 30 * (4 * (v - 3/4))
          by push_cast; ring,
        jsRound_intCast_add]
      norm_num
      congr 1
      ring

/-! ### C3: frequency/bin-index mapping -/

/-- C3 counterexample: with sampleRate 48000 and fftSize 8 the valid bins are
0..3, yet `binIndexToFrequency` clamps to `fftSize/2 = 4`, so the out-of-range
index 10 maps to the Nyquist frequency 24000 Hz and not to the nearest valid
bin's frequency 18000 Hz; moreover the round trip at bin 3 returns 2, so
exact equality also fails. -/
theorem c3_bin_mapping_counterexample :
    binIndexToFrequency 10 48000 8 = 24000 ∧
    binIndexToFrequency 3 48000 8 = 18000 ∧
    binIndexToFrequency 10 48000 8 ≠ binIndexToFrequency 3 48000 8 ∧
    frequencyToBinIndex (binIndexToFrequency 3 48000 8) 48000 8 = 2 := by
  refine ⟨by norm_num [binIndexToFrequency], by norm_num [binIndexToFrequency],
    by norm_num [binIndexToFrequency], ?_⟩
  norm_num [binIndexToFrequency, frequencyToBinIndex, jsRound]

/-- C3 amended: for every valid bin index `b` the round trip
`frequencyToBinIndex (binIndexToFrequency b)` lands within one bin of `b`
(exact equality fails for indices past half the range);
`frequencyToBinIndex` clamps non-positive frequencies to bin 0 and
frequencies at or above Nyquist to the last valid bin `fftSize/2 - 1`; and
`binIndexToFrequency` clamps negative indices to 0 Hz (bin 0's frequency)
but indices above `fftSize/2` to the Nyquist frequency — the frequency of
the out-of-range index `fftSize/2`, not of the last valid bin. -/
theorem c3_amended_bin_mapping (maxBin : ℕ) (hm : 1 ≤ maxBin) (sampleRate : ℚ)
    (hs : 0 < sampleRate) :
    (∀ b : ℕ, b ≤ maxBin - 1 →
      |frequencyToBinIndex (binIndexToFrequency b sampleRate (2 * (maxBin : ℚ))) sampleRate
        (2 * (maxBin : ℚ)) - b| ≤ 1) ∧
    (∀ f : ℚ, f ≤ 0 → frequencyToBinIndex f sampleRate (2 * (maxBin : ℚ)) = 0) ∧
    (∀ f : ℚ, sampleRate / 2 ≤ f →
      frequencyToBinIndex f sampleRate (2 * (maxBin : ℚ)) = (maxBin : ℚ) - 1) ∧
    (∀ b : ℚ, b < 0 → binIndexToFrequency b sampleRate (2 * (maxBin : ℚ)) = 0) ∧
    (∀ b : ℚ, (maxBin : ℚ) < b →
      binIndexToFrequency b sampleRate (2 * (maxBin : ℚ)) = sampleRate / 2) := by
  have hmq : (1 : ℚ) ≤ (maxBin : ℚ) := by exact_mod_cast hm
  have hmq0 : (0 : ℚ) < (maxBin : ℚ) := by linarith
  have hnyq : (0 : ℚ) < sampleRate / 2 := by linarith
  have hfft2 : (2 * (maxBin : ℚ)) / 2 = (maxBin : ℚ) := by ring
  refine ⟨?_, ?_, ?_, ?_, ?_⟩
  · intro b hb
    have hblt : b < maxBin := by omega
    have hbq0 : (0 : ℚ) ≤ (b : ℚ) := Nat.cast_nonneg b
    have hbltq : (b : ℚ) < (maxBin : ℚ) := by exact_mod_cast hblt
    have hbitf : binIndexToFrequency b sampleRate (2 * (maxBin : ℚ)) =
        ((b : ℚ) / (maxBin : ℚ)) * (sampleRate / 2) := by
      simp only [binIndexToFrequency]
      rw [hfft2, max_eq_left hbq0, min_eq_left (le_of_lt hbltq)]
    rcases Nat.eq_zero_or_pos b with hb0 | hbpos
    · subst hb0
      rw [hbitf]
      simp only [Nat.cast_zero, zero_div, zero_mul]
      simp only [frequencyToBinIndex]
      rw [if_pos le_rfl]
      norm_num
    · have hbposq : (0 : ℚ) < (b : ℚ) := by exact_mod_cast hbpos
      have hc0 : 0 < (b : ℚ) / (maxBin : ℚ) := div_pos hbposq hmq0
      have hc1 : (b : ℚ) / (maxBin : ℚ) < 1 := (div_lt_one hmq0).mpr hbltq
      have hf0 : 0 < ((b : ℚ) / (maxBin : ℚ)) * (sampleRate / 2) := mul_pos hc0 hnyq
      have hflt : ((b : ℚ) / (maxBin : ℚ)) * (sampleRate / 2) < sampleRate / 2 := by
        nlinarith
      rw [hbitf]
      simp only [frequencyToBinIndex]
      rw [if_neg (by linarith), if_neg (by linarith), hfft2,
        mul_div_cancel_right₀ _ (ne_of_gt hnyq)]
      have hcb : (b : ℚ) / (maxBin : ℚ) * ((maxBin : ℚ) - 1) =
          (b : ℚ) - (b : ℚ) / (maxBin : ℚ) := by
        field_simp
        ring
      rw [hcb]
      have hlow : (b : ℤ) - 1 ≤ jsRound ((b : ℚ) - (b : ℚ) / (maxBin : ℚ)) := by
        rw [jsRound]
        apply Int.le_floor.mpr
        push_cast
        linarith
      have hhigh : jsRound ((b : ℚ) - (b : ℚ) / (maxBin : ℚ)) ≤ (b : ℤ) := by
        rw [jsRound]
        have hlt : ((b : ℚ) - (b : ℚ) / (maxBin : ℚ)) + 1/2 < (((b : ℤ) + 1 : ℤ) : ℚ) := by
          push_cast
          linarith
        have := Int.floor_lt.mpr hlt
        omega
      have hlowq : (b : ℚ) - 1 ≤ (jsRound ((b : ℚ) - (b : ℚ) / (maxBin : ℚ)) : ℚ) := by
        exact_mod_cast hlow
      have hhighq : (jsRound ((b : ℚ) - (b : ℚ) / (maxBin : ℚ)) : ℚ) ≤ (b : ℚ) := by
        exact_mod_cast hhigh
      rw [abs_le]
      constructor <;> linarith
  · intro f hf
    simp only [frequencyToBinIndex]
    rw [if_pos hf]
  · intro f hf
    simp only [frequencyToBinIndex]
    rw [if_neg (by linarith), if_pos (by exact hf), hfft2]
  · intro b hb
    simp only [binIndexToFrequency]
    rw [hfft2, max_eq_right (le_of_lt hb), min_eq_left (by linarith)]
    simp
  · intro b hb
    simp only [binIndexToFrequency]
    have hb0 : (0 : ℚ) ≤ b := by linarith
    rw [hfft2, max_eq_left hb0, min_eq_right (le_of_lt hb), div_self (ne_of_gt hmq0), one_mul]

/-- C3 amended witness: round trip at bin 2 of an 8-point transform. -/
theorem c3_amended_bin_mapping_witness :
    |frequencyToBinIndex (binIndexToFrequency ((2 : ℕ) : ℚ) 48000 (2 * ((4 : ℕ) : ℚ))) 48000
      (2 * ((4 : ℕ) : ℚ)) - ((2 : ℕ) : ℚ)| ≤ 1 :=
  (c3_amended_bin_mapping 4 (by norm_num) 48000 (by norm_num)).1 2 (by norm_num)

/-! ### C5: the raw brightness heuristic -/

theorem bucketEnergies_eq_spec (bands : List ℚ) (meta : List BandMeta) :
    bands.length = meta.length →
    bucketEnergies bands meta =
      (lowBucketSpec bands meta, midBucketSpec bands meta, highBucketSpec bands meta) := by
  induction bands generalizing meta with
  | nil =>
    intro _
    simp [bucketEnergies, lowBucketSpec, midBucketSpec, highBucketSpec]
  | cons e rest ih =>
    intro hlen
    cases meta with
    | nil => simp at hlen
    | cons m ms =>
      have ihm := ih ms (by simpa using hlen)
      simp only [bucketEnergies, List.head?_cons, Option.map_some', Option.getD_some,
        List.tail_cons, ihm]
      simp only [lowBucketSpec, midBucketSpec, highBucketSpec, List.zip_cons_cons,
        List.filter_cons, decide_eq_true_eq]
      by_cases h1 : m.centerHz < 500
      · have h2 : ¬(500 ≤ m.centerHz ∧ m.centerHz < 2000) := fun hc => absurd h1 (not_lt.mpr hc.1)
        have h3 : ¬(2000 ≤ m.centerHz) := by linarith
        rw [if_pos h1, if_neg h2, if_neg h3, if_pos h1]
        simp only [List.map_cons, List.sum_cons]
        rw [Prod.mk.injEq, Prod.mk.injEq]
        exact ⟨by ring, by ring, by ring⟩
      · by_cases h2 : m.centerHz < 2000
        · have h2' : 500 ≤ m.centerHz ∧ m.centerHz < 2000 := ⟨not_lt.mp h1, h2⟩
          have h3 : ¬(2000 ≤ m.centerHz) := by linarith
          rw [if_neg h1, if_pos h2', if_neg h3, if_neg h1, if_pos h2]
          simp only [List.map_cons, List.sum_cons]
          rw [Prod.mk.injEq, Prod.mk.injEq]
          exact ⟨by ring, by ring, by ring⟩
        · have h2' : ¬(500 ≤ m.centerHz ∧ m.centerHz < 2000) := fun hc => absurd hc.2 h2
          have h3 : 2000 ≤ m.centerHz := not_lt.mp h2
          rw [if_neg h1, if_neg h2', if_pos h3, if_neg h1, if_neg h2]
          simp only [List.map_cons, List.sum_cons]
          rw [Prod.mk.injEq, Prod.mk.injEq]
          exact ⟨by ring, by ring, by ring⟩

/-- C5: the raw brightness equals `clamp01(highFraction * 2.5 - lowFraction * 0.5)`
with the fractions given by partitioning bands by center frequency (low
< 500 Hz, high ≥ 2000 Hz) and normalizing bucket sums by total energy
(skipped below the 0.001 epsilon); consequently, when all energy sits in
bands with center frequency ≥ 2000 Hz (and the total exceeds the epsilon)
the raw brightness is exactly 1, and when all energy sits below 500 Hz it is
exactly 0. -/
theorem c5_brightness_formula (bands : List ℚ) (meta : List BandMeta)
    (hlen : bands.length = meta.length) :
    brightnessRawOf bands meta =
      clamp01 (highFractionSpec bands meta * (5/2) - lowFractionSpec bands meta * (1/2)) ∧
    ((∀ p ∈ bands.zip meta, p.2.centerHz < 2000 → p.1 = 0) →
      1/1000 < lowBucketSpec bands meta + midBucketSpec bands meta + highBucketSpec bands meta →
      brightnessRawOf bands meta = 1) ∧
    ((∀ p ∈ bands.zip meta, 500 ≤ p.2.centerHz → p.1 = 0) →
      1/1000 < lowBucketSpec bands meta + midBucketSpec bands meta + highBucketSpec bands meta →
      brightnessRawOf bands meta = 0) := by
  have hbe := bucketEnergies_eq_spec bands meta hlen
  refine ⟨?_, ?_, ?_⟩
  · rw [brightnessRawOf, highFractionSpec, lowFractionSpec, hbe]
  · intro hzero htot
    have hlow0 : lowBucketSpec bands meta = 0 := by
      apply List.sum_eq_zero
      intro x hx
      simp only [lowBucketSpec, List.mem_map, List.mem_filter, decide_eq_true_eq] at hx
      obtain ⟨p, ⟨hp, hc⟩, rfl⟩ := hx
      exact hzero p hp (by linarith)
    have hmid0 : midBucketSpec bands meta = 0 := by
      apply List.sum_eq_zero
      intro x hx
      simp only [midBucketSpec, List.mem_map, List.mem_filter, decide_eq_true_eq] at hx
      obtain ⟨p, ⟨hp, hc⟩, rfl⟩ := hx
      exact hzero p hp hc.2
    have hhigh : 1/1000 < highBucketSpec bands meta := by
      rw [hlow0, hmid0] at htot
      linarith
    have hhne : highBucketSpec bands meta ≠ 0 := by linarith
    rw [brightnessRawOf, hbe, hlow0, hmid0]
    simp only [zero_add]
    rw [if_pos hhigh, if_pos hhigh, div_self hhne]
    norm_num [clamp01]
  · intro hzero htot
    have hmid0 : midBucketSpec bands meta = 0 := by
      apply List.sum_eq_zero
      intro x hx
      simp only [midBucketSpec, List.mem_map, List.mem_filter, decide_eq_true_eq] at hx
      obtain ⟨p, ⟨hp, hc⟩, rfl⟩ := hx
      exact hzero p hp hc.1
    have hhigh0 : highBucketSpec bands meta = 0 := by
      apply List.sum_eq_zero
      intro x hx
      simp only [highBucketSpec, List.mem_map, List.mem_filter, decide_eq_true_eq] at hx
      obtain ⟨p, ⟨hp, hc⟩, rfl⟩ := hx
      exact hzero p hp (by linarith)
    have hlow : 1/1000 < lowBucketSpec bands meta := by
      rw [hmid0, hhigh0] at htot
      linarith
    have hlne : lowBucketSpec bands meta ≠ 0 := by linarith
    rw [brightnessRawOf, hbe, hmid0, hhigh0]
    simp only [add_zero]
    rw [if_pos hlow, if_pos hlow, div_self hlne]
    norm_num [clamp01]

/-- C5 witness: the default six-band configuration with all energy in the
brilliance band (center 11000 Hz) yields raw brightness exactly 1. -/
theorem c5_brightness_formula_witness :
    brightnessRawOf [0, 0, 0, 0, 0, 1] [⟨40⟩, ⟨155⟩, ⟨375⟩, ⟨1250⟩, ⟨4000⟩, ⟨11000⟩] = 1 := by
  refine (c5_brightness_formula [0, 0, 0, 0, 0, 1]
    [⟨40⟩, ⟨155⟩, ⟨375⟩, ⟨1250⟩, ⟨4000⟩, ⟨11000⟩] (by norm_num)).2.1 ?_ ?_
  · intro p hp
    simp only [List.zip, List.zipWith, List.mem_cons, List.not_mem_nil, or_false] at hp
    rcases hp with h | h | h | h | h | h <;> subst h <;> norm_num
  · norm_num [lowBucketSpec, midBucketSpec, highBucketSpec, List.zip, List.zipWith,
      List.filter]

/-! ### C9: particle life and band invariants -/

theorem respawnParticleRadial_invariants (cx cy : ℚ) (n : ℕ) (r : RespawnRand)
    (hrb0 : 0 ≤ r.rBand) (hrb1 : r.rBand < 1) (hrl0 : 0 ≤ r.rLife) (hrl1 : r.rLife < 1)
    (hn : 1 ≤ n) :
    0 < (respawnParticleRadial cx cy n r).life ∧
    (respawnParticleRadial cx cy n r).life ≤ 8/5 ∧
    (respawnParticleRadial cx cy n r).band < n := by
  simp only [respawnParticleRadial]
  have hmax : max 1 n = n := by omega
  have hn0 : n ≠ 0 := by omega
  have hnq : (0 : ℚ) < (n : ℚ) := by exact_mod_cast hn
  refine ⟨by linarith, by linarith, ?_⟩
  rw [hmax, Int.toNat_lt' hn0]
  apply Int.floor_lt.mpr
  push_cast
  nlinarith

/-- C9: in the hybrid visual's particle update pass (band count ≥ 1, all
random draws in `[0,1)`): immediately after the update every particle's life
is strictly positive — a particle whose life reached ≤ 0 or that left the
bounds or the maximum radius is respawned within the same tick with life in
`(0, 1.6]` — and the band index stays a valid index below the band count,
both at creation and after every respawn, for every square-root routine. -/
theorem c9_particle_invariants (sqrtFn : ℚ → ℚ) (bands : List ℚ)
    (width height cx cy exclusionRadius maxRadius : ℚ) (r : RespawnRand)
    (hrb0 : 0 ≤ r.rBand) (hrb1 : r.rBand < 1) (hrl0 : 0 ≤ r.rLife) (hrl1 : r.rLife < 1)
    (hbands : 1 ≤ bands.length) (p : Particle) (hband : p.band < bands.length) :
    (0 < (updateParticleHybrid sqrtFn bands width height cx cy exclusionRadius maxRadius
        r p).life ∧
      (updateParticleHybrid sqrtFn bands width height cx cy exclusionRadius maxRadius
        r p).band < bands.length) ∧
    (0 < (respawnParticleRadial cx cy (max bands.length 1) r).life ∧
      (respawnParticleRadial cx cy (max bands.length 1) r).life ≤ 8/5 ∧
      (respawnParticleRadial cx cy (max bands.length 1) r).band < bands.length) ∧
    (∀ (w h : ℚ) (i : ℕ) (c : CreateRand), 0 ≤ c.rLife → c.rLife < 1 →
      0 < (createParticle w h bands.length i c).life ∧
      (createParticle w h bands.length i c).life ≤ 8/5 ∧
      (createParticle w h bands.length i c).band < bands.length) := by
  have hmaxlen : max bands.length 1 = bands.length := by omega
  have hresp0 := respawnParticleRadial_invariants cx cy (max bands.length 1) r hrb0 hrb1
    hrl0 hrl1 (le_max_right _ _)
  have hrespBound : (respawnParticleRadial cx cy (max bands.length 1) r).band <
      bands.length := lt_of_lt_of_eq hresp0.2.2 hmaxlen
  refine ⟨?_, ⟨hresp0.1, hresp0.2.1, hrespBound⟩, ?_⟩
  · simp only [updateParticleHybrid]
    split_ifs <;>
      first
        | exact ⟨hresp0.1, hrespBound⟩
        | (rename_i hneg
           push_neg at hneg
           exact ⟨hneg.1, hband⟩)
  · intro w h i c hc0 hc1
    simp only [createParticle]
    have hmax1 : max 1 bands.length = bands.length := by omega
    rw [hmax1]
    exact ⟨by linarith, by linarith, Nat.mod_lt i (by omega)⟩

/-- C9 witness: a concrete update of one particle over a single band. -/
theorem c9_particle_invariants_witness :
    0 < (updateParticleHybrid (fun _ => 0) [1/2] 100 100 50 50 10 60
      ⟨1, 0, 0, 0, 0, 0⟩ ⟨0, 0, 0, 0, 1, 0, 0⟩).life ∧
    (updateParticleHybrid (fun _ => 0) [1/2] 100 100 50 50 10 60
      ⟨1, 0, 0, 0, 0, 0⟩ ⟨0, 0, 0, 0, 1, 0, 0⟩).band < [(1 : ℚ)/2].length :=
  (c9_particle_invariants (fun _ => 0) [1/2] 100 100 50 50 10 60 ⟨1, 0, 0, 0, 0, 0⟩
    (by norm_num) (by norm_num) (by norm_num) (by norm_num) (by norm_num)
    ⟨0, 0, 0, 0, 1, 0, 0⟩ (by norm_num)).1
